import Mathlib

/-!
Verification of the canonical-data-to-test-suite generator
(`util/exercise/src/cmd/generate.rs`).

Text is modelled as `List Char`.  JSON values (`serde_json::Value`) are
modelled by the inductive `Json`; the accessors `Json.get`, `Json.as_array`
and `Json.as_str` mirror the serde_json methods used by the source.

The generator's property-function accumulator is a Rust
`HashMap<&str, String>`.  Its *contents* are modelled as an
insertion-ordered association list (insertion and `contains_key` are
order-insensitive), while its *iteration order* — which Rust leaves
unspecified and randomizes per process — is modelled by an explicit
parameter `iter` applied at the single point where the map is iterated
(the write loop, generate.rs lines 148-150).  Theorems constrain `iter`
to be a permutation, which is the only guarantee the Rust API gives.
-/

abbrev Str := List Char

inductive Json where
  | null : Json
  | bool : Bool → Json
  | num : Int → Json
  | str : Str → Json
  | arr : List Json → Json
  | obj : List (String × Json) → Json

/-- Field lookup in a JSON object, first matching key. -/
def getField (fields : List (String × Json)) (k : String) : Option Json :=
  match fields with
  | [] => none
  | (k₂, v) :: rest => if k₂ = k then some v else getField rest k

/-- `serde_json::Value::get` (by key): `some` only on objects with the key. -/
def Json.get (j : Json) (k : String) : Option Json :=
  match j with
  | .obj fields => getField fields k
  | _ => none

/-- `serde_json::Value::as_array`. -/
def Json.as_array : Json → Option (List Json)
  | .arr l => some l
  | _ => none

/-- `serde_json::Value::as_str`. -/
def Json.as_str : Json → Option Str
  | .str s => some s
  | _ => none

/-- ASCII lowercasing of a single character. -/
def lowerChar (c : Char) : Char :=
  if c.isUpper then Char.ofNat (c.toNat + 32) else c

/-- One character of identifier normalization: alphanumerics are lowercased,
anything else becomes the separator. -/
def sepNorm (c : Char) : Char :=
  if c.isAlpha || c.isDigit then lowerChar c else '_'

/-- Collapse runs of consecutive separators to a single one. -/
def squeeze : Str → Str
  | [] => []
  | [c] => [c]
  | a :: b :: r =>
      if a = '_' && b = '_' then squeeze (b :: r) else a :: squeeze (b :: r)

/-- Modelled from the spec: the identifier derived from a case description
(`exercise::generate_test_function` is not among the sources; §4.4 says the
name is the description "normalized into an identifier-safe token: lowercase,
non-alphanumeric runs collapsed to a single separator"). -/
def normalizeIdent (s : Str) : Str :=
  squeeze (s.map sepNorm)

/-- Escaping used when rendering a JSON string into a source literal. -/
def escapeStr : Str → Str
  | [] => []
  | c :: r =>
      (if c = '\n' then ['\\', 'n']
       else if c = '"' then ['\\', '"']
       else if c = '\\' then ['\\', '\\'] else [c]) ++ escapeStr r

mutual
/-- Modelled from the spec: deterministic literal rendering of a structured
value (§4.3); the real renderer lives in the `exercise` library crate, which
is not among the sources. -/
def renderLiteral (um : Bool) : Json → Str
  | .null => ("None").toList
  | .bool b => (if b then ("true").toList else ("false").toList)
  | .num n => (toString n).toList
  | .str s => '"' :: (escapeStr s ++ ['"'])
  | .arr xs =>
      ("vec![").toList ++ List.intercalate ((", ").toList) (renderList um xs)
        ++ ("]").toList
  | .obj fs =>
      (if um then ("hashmap![").toList else ("map![").toList)
        ++ List.intercalate ((", ").toList) (renderFields um fs)
        ++ ("]").toList

def renderList (um : Bool) : List Json → List Str
  | [] => []
  | j :: r => renderLiteral um j :: renderList um r

def renderFields (um : Bool) : List (String × Json) → List Str
  | [] => []
  | (k, v) :: r =>
      (k.toList ++ (" => ").toList ++ renderLiteral um v) :: renderFields um r
end

/-- The case's `description` field, when present as a string. -/
def caseDesc (c : Json) : Option Str :=
  match c.get ("description") with
  | some (.str s) => some s
  | _ => none

/-- The case's `property` field, when present as a string. -/
def caseProp (c : Json) : Option Str :=
  match c.get ("property") with
  | some (.str s) => some s
  | _ => none

/-- Modelled from the spec: `exercise::generate_property_body` is not among
the sources; §4.2 says the helper body is a fixed textual template keyed by
the property name alone. -/
def generate_property_body (p : Str) : Str :=
  ("fn process_").toList ++ p ++ ("_case(input, expected)\n\n").toList

/-- Modelled from the spec: `exercise::generate_test_function` is not among
the sources.  Per §4.1/§4.4 it fails (MalformedSpec) when the case lacks
`description` or `property`; it renders one test block carrying the
`#[ignore]` skip marker (the caller strips the marker from the first unit,
generate.rs lines 140-144, so the rendered form always carries it), a name
derived from the normalized description, and a body invoking the property
helper on the literal input/expected values. -/
def generate_test_function (c : Json) (um : Bool) : Except String Str :=
  match caseDesc c, caseProp c with
  | some d, some p =>
      .ok (("#[test]\n#[ignore]\nfn test_").toList ++ normalizeIdent d
        ++ ("() \n    process_").toList ++ p ++ ("_case(").toList
        ++ renderLiteral um ((c.get ("input")).getD .null) ++ (", ").toList
        ++ renderLiteral um ((c.get ("expected")).getD .null)
        ++ (");\n").toList)
  | _, _ => .error ("MalformedSpec: case is missing property or description")

/-- `HashMap::contains_key` on the modelled property-function map. -/
def containsKey (l : List (Str × Str)) (k : Str) : Bool :=
  decide (k ∈ l.map Prod.fst)

/-- The registration step of generate.rs lines 117-120 / 131-133: insert the
property's helper body only when the key is absent. -/
def insertAbsent (l : List (Str × Str)) (k : Str) : List (Str × Str) :=
  if containsKey l k then l else l ++ [(k, generate_property_body k)]

/-- Accumulator: (property_functions as insertion-ordered entries,
test_functions). -/
abbrev WalkAcc := List (Str × Str) × List Str

/-- The per-leaf body of the walk (generate.rs lines 112-123 for sub-cases,
126-136 for top-level cases; the two are identical): register the property
if present (failing when it is not a string), then push the generated test
function. -/
def processLeaf (um : Bool) (acc : WalkAcc) (c : Json) : Except String WalkAcc :=
  match c.get ("property") with
  | some pv =>
      match pv.as_str with
      | none => .error ("property inexpressable as str")
      | some p =>
          match generate_test_function c um with
          | .error e => .error e
          | .ok t => .ok (insertAbsent acc.1 p, acc.2 ++ [t])
  | none =>
      match generate_test_function c um with
      | .error e => .error e
      | .ok t => .ok (acc.1, acc.2 ++ [t])

/-- The inner loop over a group's sub-cases (generate.rs lines 107-124). -/
def processLeaves (um : Bool) : WalkAcc → List Json → Except String WalkAcc
  | acc, [] => .ok acc
  | acc, c :: rest =>
      match processLeaf um acc c with
      | .error e => .error e
      | .ok acc₂ => processLeaves um acc₂ rest

/-- One top-level element of the `cases` array (generate.rs lines 106-137):
a node with a `cases` field is a group whose children are all processed;
anything else is a leaf case. -/
def processTop (um : Bool) (acc : WalkAcc) (c : Json) : Except String WalkAcc :=
  match c.get ("cases") with
  | some subs =>
      match subs.as_array with
      | none => .error ("subcase list inexpressable as array")
      | some l => processLeaves um acc l
  | none => processLeaf um acc c

/-- The outer loop over the top-level `cases` array (generate.rs 101-138). -/
def processTops (um : Bool) : WalkAcc → List Json → Except String WalkAcc
  | acc, [] => .ok acc
  | acc, c :: rest =>
      match processTop um acc c with
      | .error e => .error e
      | .ok acc₂ => processTops um acc₂ rest

/-- The tree walk of generate.rs lines 93-138: extract the `cases` array and
fold the walk over it, starting from empty accumulators. -/
def walkCases (data : Json) (um : Bool) : Except String WalkAcc :=
  match data.get ("cases") with
  | none => .error ("cases list not present in canonical data")
  | some cs =>
      match cs.as_array with
      | none => .error ("case list inexpressable as array")
      | some l => processTops um ([], []) l

/-- The skip-marker string removed from the first test function
(generate.rs line 141). -/
def ignoreMarker : Str := ("#[ignore]\n").toList

/-- Rust `str::replace("#[ignore]\n", "")`: delete every non-overlapping
occurrence of the marker, scanning left to right. -/
def removeIgnore : Str → Str
  | [] => []
  | c :: rest =>
      if ignoreMarker.isPrefixOf (c :: rest) then removeIgnore (List.drop 9 rest)
      else c :: removeIgnore rest
termination_by s => s.length
decreasing_by
  · simp [List.length_drop]
    omega
  · simp

/-- Generate.rs lines 140-144: when the list of test functions is non-empty,
remove the first element, delete every `#[ignore]\n` occurrence in it, and
reinsert it at the front. -/
def makeFirstRunnable : List Str → List Str
  | [] => []
  | first :: rest => removeIgnore first :: rest

/-- The preamble written first (generate.rs lines 77-91): doc-comment header
followed by the caller-supplied tests content. -/
def updated_tests_content (exercise_name tests_content : Str) : Str :=
  ("//! Tests for ").toList ++ exercise_name
    ++ (" \n//! \n//! Generated by [utility][utility] using [canonical data][canonical_data]\n//! \n//! [utility]: https://github.com/exercism/rust/tree/master/util/exercise\n//! [canonical_data]: https://raw.githubusercontent.com/exercism/problem-specifications/master/exercises/").toList
    ++ exercise_name ++ ("/canonical-data.json\n\n").toList
    ++ tests_content ++ (" \n").toList

/-- The pure content of generate.rs lines 77-152: preamble, then the
property bodies in the map's iteration order `iter`, then the test
functions joined by blank lines. -/
def generate_tests_from_canonical_data (exercise_name tests_content : Str)
    (data : Json) (um : Bool)
    (iter : List (Str × Str) → List (Str × Str)) : Except String Str :=
  match walkCases data um with
  | .error e => .error e
  | .ok (pf, tf) =>
      .ok (updated_tests_content exercise_name tests_content
        ++ ((iter pf).map Prod.snd).flatten
        ++ List.intercalate (("\n\n").toList) (makeFirstRunnable tf))

instance : DecidableEq (Except String Str)
  | .ok a, .ok b =>
      if h : a = b then .isTrue (by rw [h])
      else .isFalse (by intro he; cases he; exact h rfl)
  | .ok _, .error _ => .isFalse (by intro he; cases he)
  | .error _, .ok _ => .isFalse (by intro he; cases he)
  | .error e, .error f =>
      if h : e = f then .isTrue (by rw [h])
      else .isFalse (by intro he; cases he; exact h rfl)

/-- A string free of the `#` character (the marker's first character). -/
def noHash (s : Str) : Bool := s.all (fun c => c != '#')

/-- Substring test: does `pat` occur anywhere in the second argument? -/
def containsSub (pat : Str) : Str → Bool
  | [] => pat.isEmpty
  | c :: rest => pat.isPrefixOf (c :: rest) || containsSub pat rest

/-- Does the text contain the skip marker `#[ignore]\n`? -/
def hasMarker (s : Str) : Bool := containsSub ignoreMarker s

theorem ignoreMarker_eq :
    ignoreMarker
      = '#' :: ('[' :: ('i' :: ('g' :: ('n' :: ('o' :: ('r' :: ('e' :: (']' :: ('\n' :: []))))))))) := rfl

theorem marker_isPrefixOf_append (t : Str) :
    ignoreMarker.isPrefixOf (ignoreMarker ++ t) = true :=
  List.isPrefixOf_iff_prefix.mpr ⟨t, rfl⟩

theorem marker_isPrefixOf_neg {c : Char} (rest : Str) (h : c ≠ '#') :
    ignoreMarker.isPrefixOf (c :: rest) = false := by
  rw [ignoreMarker_eq]
  simp [List.isPrefixOf]
  intro hc
  exact absurd hc.symm h

theorem removeIgnore_cons_pos {c : Char} {rest : Str}
    (h : ignoreMarker.isPrefixOf (c :: rest) = true) :
    removeIgnore (c :: rest) = removeIgnore (List.drop 9 rest) := by
  rw [removeIgnore, if_pos h]

theorem removeIgnore_cons_neg {c : Char} {rest : Str}
    (h : ignoreMarker.isPrefixOf (c :: rest) = false) :
    removeIgnore (c :: rest) = c :: removeIgnore rest := by
  rw [removeIgnore, if_neg (by simp [h])]

theorem removeIgnore_marker_append (t : Str) :
    removeIgnore (ignoreMarker ++ t) = removeIgnore t := by
  have hc : ignoreMarker ++ t = '#' :: (("[ignore]\n").toList ++ t) := rfl
  rw [hc, removeIgnore, if_pos]
  · norm_num [List.drop_append_of_le_length]
  · exact List.isPrefixOf_iff_prefix.mpr ⟨t, rfl⟩

theorem removeIgnore_noHash {t : Str} (h : noHash t = true) :
    removeIgnore t = t := by
  induction t with
  | nil => rw [removeIgnore]
  | cons c rest ih =>
      simp [noHash] at h
      obtain ⟨h1, h2⟩ := h
      rw [removeIgnore_cons_neg (marker_isPrefixOf_neg rest h1)]
      rw [ih (by simp [noHash]; exact h2)]

theorem removeIgnore_clean_append {a : Str} (t : Str) (h : noHash a = true) :
    removeIgnore (a ++ ignoreMarker ++ t) = a ++ removeIgnore t := by
  induction a with
  | nil => simpa using removeIgnore_marker_append t
  | cons c rest ih =>
      simp [noHash] at h
      obtain ⟨h1, h2⟩ := h
      have hstep := removeIgnore_cons_neg
        (marker_isPrefixOf_neg (rest ++ ignoreMarker ++ t) h1)
      calc removeIgnore ((c :: rest) ++ ignoreMarker ++ t)
          = removeIgnore (c :: (rest ++ ignoreMarker ++ t)) := by simp
        _ = c :: removeIgnore (rest ++ ignoreMarker ++ t) := hstep
        _ = c :: (rest ++ removeIgnore t) := by
              rw [ih (by simp [noHash]; exact h2)]
        _ = (c :: rest) ++ removeIgnore t := by simp

theorem containsSub_marker_mid (x y : Str) :
    containsSub ignoreMarker (x ++ (ignoreMarker ++ y)) = true := by
  induction x with
  | nil =>
      simp only [List.nil_append]
      rw [show ignoreMarker ++ y = '#' :: (("[ignore]\n").toList ++ y) from rfl]
      rw [containsSub]
      rw [show ('#' :: (("[ignore]\n").toList ++ y)) = ignoreMarker ++ y from rfl]
      rw [marker_isPrefixOf_append]
      simp
  | cons c rest ih =>
      rw [List.cons_append, containsSub]
      rw [ih]
      simp

theorem containsSub_marker_neg {t : Str} (h : noHash t = true) :
    containsSub ignoreMarker t = false := by
  induction t with
  | nil => rw [containsSub]; rfl
  | cons c rest ih =>
      simp [noHash] at h
      obtain ⟨h1, h2⟩ := h
      rw [containsSub, marker_isPrefixOf_neg rest h1,
        ih (by simp [noHash]; exact h2)]
      rfl

theorem hasMarker_unit_tail {t : Str} (h : noHash t = true) :
    hasMarker (("#[test]\n").toList ++ t) = false := by
  rw [hasMarker]
  rw [show ("#[test]\n").toList ++ t
      = '#' :: ('[' :: ('t' :: ('e' :: ('s' :: ('t' :: (']' :: ('\n' :: t))))))) from rfl]
  rw [containsSub]
  rw [show ignoreMarker.isPrefixOf
      ('#' :: ('[' :: ('t' :: ('e' :: ('s' :: ('t' :: (']' :: ('\n' :: t)))))))) = false from rfl]
  rw [containsSub, marker_isPrefixOf_neg _ (by decide)]
  rw [containsSub, marker_isPrefixOf_neg _ (by decide)]
  rw [containsSub, marker_isPrefixOf_neg _ (by decide)]
  rw [containsSub, marker_isPrefixOf_neg _ (by decide)]
  rw [containsSub, marker_isPrefixOf_neg _ (by decide)]
  rw [containsSub, marker_isPrefixOf_neg _ (by decide)]
  rw [containsSub, marker_isPrefixOf_neg _ (by decide)]
  rw [containsSub_marker_neg h]
  rfl

/-- The description string of a case (empty when absent). -/
def descOf (c : Json) : Str := (caseDesc c).getD []

/-- The property string of a case (empty when absent). -/
def propOf (c : Json) : Str := (caseProp c).getD []

/-- The rendered function-name fragment of a test unit derived from
description `d`. -/
def fnName (d : Str) : Str :=
  ("fn test_").toList ++ normalizeIdent d ++ ("()").toList

/-- The top-level elements of the `cases` array of the document. -/
def topsOf (data : Json) : List Json :=
  match data.get ("cases") with
  | some cs => cs.as_array.getD []
  | none => []

/-- The leaf cases contributed by one top-level element: a node carrying a
`cases` field is a group and contributes its children, anything else is
itself a leaf case. -/
def leavesOfTop (c : Json) : List Json :=
  match c.get ("cases") with
  | some subs => subs.as_array.getD []
  | none => [c]

/-- All leaf cases of a list of top-level elements, in document order. -/
def leavesAll (l : List Json) : List Json := (l.map leavesOfTop).flatten

/-- All leaf cases of the document, in document order. -/
def leafCasesAll (data : Json) : List Json := leavesAll (topsOf data)

/-- The property strings of a list of leaf cases, in order. -/
def propsOf (l : List Json) : List Str := l.filterMap caseProp

/-- First-seen deduplication relative to an already-seen key list. -/
def firstSeenAux (seen : List Str) : List Str → List Str
  | [] => []
  | p :: r =>
      if p ∈ seen then firstSeenAux seen r
      else p :: firstSeenAux (seen ++ [p]) r

/-- Generate the test functions of a list of leaf cases, failing on the
first failing case. -/
def unitsOfLeaves (um : Bool) : List Json → Except String (List Str)
  | [] => .ok []
  | c :: r =>
      match generate_test_function c um with
      | .error e => .error e
      | .ok t =>
          match unitsOfLeaves um r with
          | .error e => .error e
          | .ok us => .ok (t :: us)

/-- A case whose property and rendered values avoid `#`, so that its
rendered unit contains the skip marker exactly once. -/
def cleanCase (um : Bool) (c : Json) : Bool :=
  noHash (propOf c)
    && noHash (renderLiteral um ((c.get ("input")).getD .null))
    && noHash (renderLiteral um ((c.get ("expected")).getD .null))

/-- The walk produced at most one registry entry (or failed). -/
def registrySmall (data : Json) (um : Bool) : Bool :=
  match walkCases data um with
  | .ok (pf, _) => decide (pf.length ≤ 1)
  | .error _ => true

/-- The registry maps each property to its generated helper body. -/
def bodiesOk (l : List (Str × Str)) : Prop :=
  ∀ e ∈ l, e.2 = generate_property_body e.1

theorem char_toNat_ofNat {n : Nat} (h : n.isValidChar) :
    (Char.ofNat n).toNat = n := by
  rw [Char.ofNat, dif_pos h]; rfl

theorem isUpper_bounds {c : Char} (h : c.isUpper = true) :
    65 ≤ c.toNat ∧ c.toNat ≤ 90 := by
  simp [Char.isUpper] at h
  obtain ⟨h1, h2⟩ := h
  exact ⟨h1, h2⟩

theorem sepNorm_ne_hash (c : Char) : sepNorm c ≠ '#' := by
  intro hEq
  rw [sepNorm] at hEq
  by_cases halnum : (c.isAlpha || c.isDigit) = true
  · rw [if_pos halnum] at hEq
    rw [lowerChar] at hEq
    by_cases hup : c.isUpper = true
    · rw [if_pos hup] at hEq
      obtain ⟨hb1, hb2⟩ := isUpper_bounds hup
      have hv : (c.toNat + 32).isValidChar := Or.inl (by omega)
      have h35 := congrArg Char.toNat hEq
      rw [char_toNat_ofNat hv] at h35
      have h36 : ('#').toNat = 35 := rfl
      omega
    · rw [if_neg hup] at hEq
      rw [hEq] at halnum
      exact absurd halnum (by decide)
  · rw [if_neg halnum] at hEq
    exact absurd hEq (by decide)

theorem squeeze_all (P : Char → Bool) :
    ∀ s : Str, s.all P = true → (squeeze s).all P = true
  | [] => by simp [squeeze]
  | [c] => by simp [squeeze]
  | a :: b :: r => by
      intro h
      simp only [List.all_cons, Bool.and_eq_true] at h
      rw [squeeze]
      split
      · exact squeeze_all P (b :: r)
          (by simp only [List.all_cons, Bool.and_eq_true]; exact h.2)
      · simp only [List.all_cons, Bool.and_eq_true]
        refine ⟨h.1, ?_⟩
        have := squeeze_all P (b :: r)
          (by simp only [List.all_cons, Bool.and_eq_true]; exact h.2)
        simpa using this

theorem normalizeIdent_noHash (s : Str) : noHash (normalizeIdent s) = true := by
  rw [normalizeIdent, noHash]
  apply squeeze_all
  simp only [List.all_map, List.all_eq_true, Function.comp]
  intro c _
  simpa [bne_iff_ne] using sepNorm_ne_hash c

theorem genFn_ok_shape {c : Json} {um : Bool} {t : Str}
    (h : generate_test_function c um = .ok t) :
    ∃ d p, caseDesc c = some d ∧ caseProp c = some p ∧
      t = ("#[test]\n#[ignore]\nfn test_").toList ++ normalizeIdent d
        ++ ("() \n    process_").toList ++ p ++ ("_case(").toList
        ++ renderLiteral um ((c.get ("input")).getD .null) ++ (", ").toList
        ++ renderLiteral um ((c.get ("expected")).getD .null)
        ++ (");\n").toList := by
  cases hd : caseDesc c with
  | none =>
      cases hp : caseProp c with
      | none => simp only [generate_test_function, hd, hp] at h; cases h
      | some p => simp only [generate_test_function, hd, hp] at h; cases h
  | some d =>
      cases hp : caseProp c with
      | none => simp only [generate_test_function, hd, hp] at h; cases h
      | some p =>
          simp only [generate_test_function, hd, hp, Except.ok.injEq] at h
          exact ⟨d, p, rfl, rfl, h.symm⟩

theorem genFn_ok_fields {c : Json} {um : Bool} {t : Str}
    (h : generate_test_function c um = .ok t) :
    ∃ d p, caseDesc c = some d ∧ caseProp c = some p := by
  obtain ⟨d, p, hd, hp, _⟩ := genFn_ok_shape h
  exact ⟨d, p, hd, hp⟩

theorem unitsOfLeaves_append_ok {um : Bool} {a b : List Json} {ua ub : List Str}
    (ha : unitsOfLeaves um a = .ok ua) (hb : unitsOfLeaves um b = .ok ub) :
    unitsOfLeaves um (a ++ b) = .ok (ua ++ ub) := by
  induction a generalizing ua with
  | nil =>
      simp [unitsOfLeaves] at ha
      simpa [ha] using hb
  | cons c r ih =>
      rw [unitsOfLeaves] at ha
      cases hg : generate_test_function c um with
      | error e => rw [hg] at ha; cases ha
      | ok t =>
          rw [hg] at ha
          cases hr : unitsOfLeaves um r with
          | error e => rw [hr] at ha; cases ha
          | ok us =>
              rw [hr] at ha
              cases ha
              rw [List.cons_append, unitsOfLeaves, hg, ih hr]
              rfl

theorem unitsOfLeaves_ok_length {um : Bool} :
    ∀ {l : List Json} {us : List Str}, unitsOfLeaves um l = .ok us →
      us.length = l.length
  | [], us, h => by simp [unitsOfLeaves] at h; simp [← h]
  | c :: r, us, h => by
      rw [unitsOfLeaves] at h
      cases hg : generate_test_function c um with
      | error e => rw [hg] at h; cases h
      | ok t =>
          rw [hg] at h
          cases hr : unitsOfLeaves um r with
          | error e => rw [hr] at h; cases h
          | ok us₂ =>
              rw [hr] at h
              cases h
              simpa using unitsOfLeaves_ok_length hr

theorem unitsOfLeaves_ok_get {um : Bool} :
    ∀ {l : List Json} {us : List Str}, unitsOfLeaves um l = .ok us →
      ∀ i (hi : i < l.length) (hi₂ : i < us.length),
        generate_test_function (l.get ⟨i, hi⟩) um = .ok (us.get ⟨i, hi₂⟩)
  | [], us, h => by intro i hi; cases hi
  | c :: r, us, h => by
      rw [unitsOfLeaves] at h
      cases hg : generate_test_function c um with
      | error e => rw [hg] at h; cases h
      | ok t =>
          rw [hg] at h
          cases hr : unitsOfLeaves um r with
          | error e => rw [hr] at h; cases h
          | ok us₂ =>
              rw [hr] at h
              cases h
              intro i hi hi₂
              cases i with
              | zero => simpa using hg
              | succ n =>
                  simpa using unitsOfLeaves_ok_get hr n
                    (by simpa using hi) (by simpa using hi₂)

theorem unitsOfLeaves_ok_mem {um : Bool} :
    ∀ {l : List Json} {us : List Str}, unitsOfLeaves um l = .ok us →
      ∀ u ∈ us, ∃ c ∈ l, generate_test_function c um = .ok u
  | [], us, h => by
      simp [unitsOfLeaves] at h
      subst h
      intro u hu
      cases hu
  | c :: r, us, h => by
      rw [unitsOfLeaves] at h
      cases hg : generate_test_function c um with
      | error e => rw [hg] at h; cases h
      | ok t =>
          rw [hg] at h
          cases hr : unitsOfLeaves um r with
          | error e => rw [hr] at h; cases h
          | ok us₂ =>
              rw [hr] at h
              cases h
              intro u hu
              cases hu with
              | head => exact ⟨c, List.mem_cons_self c r, hg⟩
              | tail _ hmem =>
                  obtain ⟨c₂, hc₂, hgen⟩ := unitsOfLeaves_ok_mem hr u hmem
                  exact ⟨c₂, List.mem_cons_of_mem c hc₂, hgen⟩

theorem unitsOfLeaves_ok_wf {um : Bool} :
    ∀ {l : List Json} {us : List Str}, unitsOfLeaves um l = .ok us →
      ∀ c ∈ l, ∃ d p, caseDesc c = some d ∧ caseProp c = some p
  | [], us, h => by intro c hc; cases hc
  | c :: r, us, h => by
      rw [unitsOfLeaves] at h
      cases hg : generate_test_function c um with
      | error e => rw [hg] at h; cases h
      | ok t =>
          rw [hg] at h
          cases hr : unitsOfLeaves um r with
          | error e => rw [hr] at h; cases h
          | ok us₂ =>
              intro c₂ hc₂
              cases hc₂ with
              | head => exact genFn_ok_fields hg
              | tail _ hmem => exact unitsOfLeaves_ok_wf hr c₂ hmem

theorem propsOf_append (a b : List Json) :
    propsOf (a ++ b) = propsOf a ++ propsOf b := by
  simp [propsOf]

theorem insertAbsent_keys (l : List (Str × Str)) (k : Str) :
    (insertAbsent l k).map Prod.fst =
      if k ∈ l.map Prod.fst then l.map Prod.fst
      else l.map Prod.fst ++ [k] := by
  by_cases hk : k ∈ l.map Prod.fst <;> simp [insertAbsent, containsKey, hk]

theorem insertAbsent_bodies {l : List (Str × Str)} {k : Str}
    (h : bodiesOk l) : bodiesOk (insertAbsent l k) := by
  intro e he
  by_cases hk : containsKey l k = true
  · rw [insertAbsent, if_pos hk] at he
    exact h e he
  · rw [insertAbsent, if_neg (by simp [hk])] at he
    rcases List.mem_append.mp he with h1 | h1
    · exact h e h1
    · rw [List.mem_singleton.mp h1]

theorem processLeaf_ok {um : Bool} {acc acc₂ : WalkAcc} {c : Json}
    (h : processLeaf um acc c = .ok acc₂) :
    ∃ p t, caseProp c = some p ∧ generate_test_function c um = .ok t ∧
      acc₂ = (insertAbsent acc.1 p, acc.2 ++ [t]) := by
  cases hp : c.get ("property") with
  | none =>
      cases hg : generate_test_function c um with
      | error e => simp only [processLeaf, hp, hg] at h; cases h
      | ok t =>
          obtain ⟨d, p, _, hp2⟩ := genFn_ok_fields hg
          simp [caseProp, hp] at hp2
  | some pv =>
      cases hs : pv.as_str with
      | none => simp only [processLeaf, hp, hs] at h; cases h
      | some p =>
          cases hg : generate_test_function c um with
          | error e => simp only [processLeaf, hp, hs, hg] at h; cases h
          | ok t =>
              simp only [processLeaf, hp, hs, hg, Except.ok.injEq] at h
              have hcp : caseProp c = some p := by
                cases pv with
                | str s =>
                    simp [Json.as_str] at hs
                    rw [caseProp, hp, hs]
                | null => simp [Json.as_str] at hs
                | bool b => simp [Json.as_str] at hs
                | num n => simp [Json.as_str] at hs
                | arr xs => simp [Json.as_str] at hs
                | obj fs => simp [Json.as_str] at hs
              exact ⟨p, t, hcp, rfl, h.symm⟩

theorem processLeaves_singleton {um : Bool} {acc : WalkAcc} {c : Json} :
    processLeaves um acc [c] = processLeaf um acc c := by
  cases h : processLeaf um acc c <;> simp [processLeaves, h]

theorem processLeaves_ok {um : Bool} (l : List Json) :
    ∀ (acc : WalkAcc) {pf : List (Str × Str)} {tf : List Str},
      processLeaves um acc l = .ok (pf, tf) →
      pf.map Prod.fst
          = acc.1.map Prod.fst
            ++ firstSeenAux (acc.1.map Prod.fst) (propsOf l)
        ∧ (∃ us, unitsOfLeaves um l = .ok us ∧ tf = acc.2 ++ us)
        ∧ (bodiesOk acc.1 → bodiesOk pf) := by
  induction l with
  | nil =>
      intro acc pf tf h
      obtain ⟨a1, a2⟩ := acc
      simp only [processLeaves, Except.ok.injEq] at h
      cases h
      refine ⟨by simp [propsOf, firstSeenAux], ⟨[], by simp [unitsOfLeaves], by simp⟩, fun hb => hb⟩
  | cons c r ih =>
      intro acc pf tf h
      rw [processLeaves] at h
      cases hl : processLeaf um acc c with
      | error e => rw [hl] at h; cases h
      | ok acc₂ =>
          rw [hl] at h
          obtain ⟨p, t, hcp, hg, hacc⟩ := processLeaf_ok hl
          subst hacc
          obtain ⟨hkeys, ⟨us, hus, htf⟩, hbody⟩ := ih _ h
          have hprops : propsOf (c :: r) = p :: propsOf r := by
            simp [propsOf, List.filterMap_cons, hcp]
          refine ⟨?_, ⟨t :: us, by simp [unitsOfLeaves, hg, hus], by simp [htf]⟩,
            fun hb => hbody (insertAbsent_bodies hb)⟩
      
      
          rw [hprops]
          by_cases hmem : p ∈ acc.1.map Prod.fst
          · rw [firstSeenAux, if_pos hmem]
            rw [hkeys, insertAbsent_keys, if_pos hmem]
          · rw [firstSeenAux, if_neg hmem]
            rw [hkeys, insertAbsent_keys, if_neg hmem]
            simp [List.append_assoc]

theorem processTop_ok {um : Bool} {acc : WalkAcc} {c : Json}
    {pf : List (Str × Str)} {tf : List Str}
    (h : processTop um acc c = .ok (pf, tf)) :
    pf.map Prod.fst
        = acc.1.map Prod.fst
          ++ firstSeenAux (acc.1.map Prod.fst) (propsOf (leavesOfTop c))
      ∧ (∃ us, unitsOfLeaves um (leavesOfTop c) = .ok us ∧ tf = acc.2 ++ us)
      ∧ (bodiesOk acc.1 → bodiesOk pf) := by
  cases hc : c.get ("cases") with
  | none =>
      simp only [processTop, hc] at h
      have h₂ : processLeaves um acc [c] = .ok (pf, tf) := by
        rw [processLeaves_singleton]; exact h
      simpa [leavesOfTop, hc] using processLeaves_ok [c] acc h₂
  | some subs =>
      cases ha : subs.as_array with
      | none => simp only [processTop, hc, ha] at h; cases h
      | some lsub =>
          simp only [processTop, hc, ha] at h
          simpa [leavesOfTop, hc, ha] using processLeaves_ok lsub acc h

theorem firstSeenAux_append (a b : List Str) :
    ∀ seen, firstSeenAux seen (a ++ b)
      = firstSeenAux seen a ++ firstSeenAux (seen ++ firstSeenAux seen a) b := by
  induction a with
  | nil => intro seen; simp [firstSeenAux]
  | cons p r ih =>
      intro seen
      by_cases hp : p ∈ seen
      · rw [List.cons_append, firstSeenAux, if_pos hp, ih seen,
          firstSeenAux, if_pos hp]
      · rw [List.cons_append, firstSeenAux, if_neg hp, ih (seen ++ [p])]
        conv_rhs => rw [firstSeenAux, if_neg hp]
        simp [List.append_assoc]

theorem processTops_ok {um : Bool} (l : List Json) :
    ∀ (acc : WalkAcc) {pf : List (Str × Str)} {tf : List Str},
      processTops um acc l = .ok (pf, tf) →
      pf.map Prod.fst
          = acc.1.map Prod.fst
            ++ firstSeenAux (acc.1.map Prod.fst) (propsOf (leavesAll l))
        ∧ (∃ us, unitsOfLeaves um (leavesAll l) = .ok us ∧ tf = acc.2 ++ us)
        ∧ (bodiesOk acc.1 → bodiesOk pf) := by
  induction l with
  | nil =>
      intro acc pf tf h
      obtain ⟨a1, a2⟩ := acc
      simp only [processTops, Except.ok.injEq] at h
      cases h
      exact ⟨by simp [leavesAll, propsOf, firstSeenAux],
        ⟨[], by simp [leavesAll, unitsOfLeaves], by simp⟩, fun hb => hb⟩
  | cons c r ih =>
      intro acc pf tf h
      rw [processTops] at h
      cases ht : processTop um acc c with
      | error e => rw [ht] at h; cases h
      | ok acc₂ =>
          rw [ht] at h
          obtain ⟨a1, a2⟩ := acc₂
          obtain ⟨hk1, ⟨us1, hus1, htf1⟩, hb1⟩ := processTop_ok ht
          obtain ⟨hk2, ⟨us2, hus2, htf2⟩, hb2⟩ := ih _ h
          have hla : leavesAll (c :: r) = leavesOfTop c ++ leavesAll r := by
            simp [leavesAll]
          refine ⟨?_, ?_, fun hb => hb2 (hb1 hb)⟩
          · rw [hla, propsOf_append, firstSeenAux_append]
            rw [hk2, hk1]
            simp [List.append_assoc]
          · refine ⟨us1 ++ us2, ?_, ?_⟩
            · rw [hla]
              exact unitsOfLeaves_append_ok hus1 hus2
            · rw [htf2, htf1]
              simp [List.append_assoc]

theorem walk_ok {data : Json} {um : Bool} {pf : List (Str × Str)}
    {tf : List Str} (h : walkCases data um = .ok (pf, tf)) :
    pf.map Prod.fst = firstSeenAux [] (propsOf (leafCasesAll data))
      ∧ unitsOfLeaves um (leafCasesAll data) = .ok tf
      ∧ bodiesOk pf := by
  cases hc : data.get ("cases") with
  | none => simp only [walkCases, hc] at h; cases h
  | some cs =>
      cases ha : cs.as_array with
      | none => simp only [walkCases, hc, ha] at h; cases h
      | some l =>
          simp only [walkCases, hc, ha] at h
          obtain ⟨hk, ⟨us, hus, htf⟩, hb⟩ := processTops_ok l ([], []) h
          have hlc : leafCasesAll data = leavesAll l := by
            simp [leafCasesAll, topsOf, hc, ha]
          refine ⟨?_, ?_, ?_⟩
          · rw [hlc]
            simpa using hk
          · rw [hlc, hus, htf]
            simp
          · exact hb (fun e he => absurd he (List.not_mem_nil e))

theorem firstSeenAux_mem (l : List Str) :
    ∀ (seen : List Str) (x : Str),
      x ∈ firstSeenAux seen l → x ∈ l ∧ x ∉ seen := by
  induction l with
  | nil => intro seen x h; rw [firstSeenAux] at h; cases h
  | cons p r ih =>
      intro seen x h
      by_cases hp : p ∈ seen
      · rw [firstSeenAux, if_pos hp] at h
        obtain ⟨h1, h2⟩ := ih seen x h
        exact ⟨List.mem_cons_of_mem p h1, h2⟩
      · rw [firstSeenAux, if_neg hp] at h
        cases h with
        | head => exact ⟨List.mem_cons_self _ _, hp⟩
        | tail _ hm =>
            obtain ⟨h1, h2⟩ := ih (seen ++ [p]) x hm
            exact ⟨List.mem_cons_of_mem p h1,
              fun hx => h2 (List.mem_append_left _ hx)⟩

theorem firstSeenAux_complete (l : List Str) :
    ∀ (seen : List Str) (x : Str),
      x ∈ l → x ∉ seen → x ∈ firstSeenAux seen l := by
  induction l with
  | nil => intro seen x h; cases h
  | cons p r ih =>
      intro seen x hx hns
      by_cases hp : p ∈ seen
      · rw [firstSeenAux, if_pos hp]
        cases hx with
        | head => exact absurd hp hns
        | tail _ hm => exact ih seen x hm hns
      · rw [firstSeenAux, if_neg hp]
        by_cases hxp : x = p
        · rw [hxp]; exact List.mem_cons_self _ _
        · cases hx with
          | head => exact absurd rfl hxp
          | tail _ hm =>
              refine List.mem_cons_of_mem p (ih (seen ++ [p]) x hm ?_)
              intro hmem
              rcases List.mem_append.mp hmem with h1 | h1
              · exact hns h1
              · exact hxp (List.mem_singleton.mp h1)

theorem firstSeenAux_nodup (l : List Str) :
    ∀ seen, (firstSeenAux seen l).Nodup := by
  induction l with
  | nil => intro seen; rw [firstSeenAux]; exact List.nodup_nil
  | cons p r ih =>
      intro seen
      by_cases hp : p ∈ seen
      · rw [firstSeenAux, if_pos hp]; exact ih seen
      · rw [firstSeenAux, if_neg hp]
        refine List.nodup_cons.mpr ⟨?_, ih (seen ++ [p])⟩
        intro hmem
        obtain ⟨_, h2⟩ := firstSeenAux_mem r (seen ++ [p]) p hmem
        exact h2 (List.mem_append_right _ (List.mem_singleton.mpr rfl))

theorem noHash_append (a b : Str) :
    noHash (a ++ b) = (noHash a && noHash b) := by
  simp [noHash, List.all_append]

theorem containsSub_mid (q : Char) (qr : Str) (x y : Str) :
    containsSub (q :: qr) (x ++ ((q :: qr) ++ y)) = true := by
  induction x with
  | nil =>
      rw [List.nil_append, List.cons_append, containsSub]
      have hpre : (q :: qr).isPrefixOf ((q :: qr) ++ y) = true :=
        List.isPrefixOf_iff_prefix.mpr (List.prefix_append _ y)
      rw [List.cons_append] at hpre
      rw [hpre]
      simp
  | cons c r ih =>
      rw [List.cons_append, containsSub, ih]
      simp

theorem generate_ok_walk {name tc : Str} {data : Json} {um : Bool}
    {iter : List (Str × Str) → List (Str × Str)} {out : Str}
    (h : generate_tests_from_canonical_data name tc data um iter = .ok out) :
    ∃ pf tf, walkCases data um = .ok (pf, tf) := by
  rw [generate_tests_from_canonical_data] at h
  cases hw : walkCases data um with
  | error e => rw [hw] at h; cases h
  | ok acc =>
      obtain ⟨pf, tf⟩ := acc
      exact ⟨pf, tf, rfl⟩

theorem genFn_marker_decomp {c : Json} {um : Bool} {t : Str}
    (h : generate_test_function c um = .ok t)
    (hc : cleanCase um c = true) :
    ∃ tail, t = ("#[test]\n").toList ++ (ignoreMarker ++ tail)
      ∧ noHash tail = true := by
  obtain ⟨d, p, hd, hp, ht⟩ := genFn_ok_shape h
  refine ⟨("fn test_").toList ++ normalizeIdent d
      ++ ("() \n    process_").toList ++ p ++ ("_case(").toList
      ++ renderLiteral um ((c.get ("input")).getD .null) ++ (", ").toList
      ++ renderLiteral um ((c.get ("expected")).getD .null)
      ++ (");\n").toList, ?_, ?_⟩
  · rw [ht]
    rw [show ("#[test]\n#[ignore]\nfn test_").toList
        = ("#[test]\n").toList ++ (ignoreMarker ++ ("fn test_").toList) from rfl]
    simp [List.append_assoc]
  · rw [cleanCase] at hc
    simp only [Bool.and_eq_true] at hc
    obtain ⟨⟨hprop, hin⟩, hex⟩ := hc
    rw [propOf, hp] at hprop
    have l1 : noHash (("fn test_").toList) = true := by decide
    have l2 : noHash (("() \n    process_").toList) = true := by decide
    have l3 : noHash (("_case(").toList) = true := by decide
    have l4 : noHash ((", ").toList) = true := by decide
    have l5 : noHash ((");\n").toList) = true := by decide
    simp only [noHash_append, Bool.and_eq_true]
    exact ⟨⟨⟨⟨⟨⟨⟨⟨l1, normalizeIdent_noHash d⟩, l2⟩, hprop⟩, l3⟩, hin⟩, l4⟩, hex⟩, l5⟩

/-- A leaf case literal used by the concrete examples. -/
def mkCase (d p : String) (i e : Int) : Json :=
  .obj [("description", .str d.toList), ("property", .str p.toList),
        ("input", .num i), ("expected", .num e)]

/-- The registry produced by a successful walk (first component). -/
def walkPf (data : Json) (um : Bool) : List (Str × Str) :=
  match walkCases data um with
  | .ok a => a.1
  | .error _ => []

/-- The test functions produced by a successful walk (second component). -/
def walkTf (data : Json) (um : Bool) : List Str :=
  match walkCases data um with
  | .ok a => a.2
  | .error _ => []

/-- C8: an empty top-level `cases` array is not an error: generation succeeds
and the produced document is exactly the preamble, with zero property helpers
and zero test units. -/
theorem c8_empty_spec (name tc : Str) (um : Bool)
    (iter : List (Str × Str) → List (Str × Str))
    (hiter : ∀ l, (iter l).Perm l)
    (data : Json) (hdata : data.get ("cases") = some (Json.arr [])) :
    generate_tests_from_canonical_data name tc data um iter
      = .ok (updated_tests_content name tc)
    ∧ walkCases data um = .ok ([], []) := by
  have hw : walkCases data um = .ok ([], []) := by
    simp only [walkCases, hdata, Json.as_array]
    rfl
  have hnil : iter [] = [] := (hiter []).eq_nil
  refine ⟨?_, hw⟩
  simp only [generate_tests_from_canonical_data, hw, hnil, makeFirstRunnable]
  simp [List.intercalate]

theorem c8_witness :
    generate_tests_from_canonical_data ("x").toList [] (Json.obj [("cases", Json.arr [])]) false id
      = .ok (updated_tests_content ("x").toList [])
    ∧ walkCases (Json.obj [("cases", Json.arr [])]) false = .ok ([], []) :=
  c8_empty_spec _ _ _ _ (fun l => List.Perm.refl l) _ rfl

/-- C4: under a successful run, the number of test units equals the number
of leaf cases of the input tree: groups contribute zero units of their own
and each leaf case (top-level or inside a group) contributes exactly one;
the first-unit rewrite step does not change the count. -/
theorem c4_unit_count (name tc : Str) (data : Json) (um : Bool)
    (iter : List (Str × Str) → List (Str × Str)) (out : Str)
    (pf : List (Str × Str)) (tf : List Str)
    (hgen : generate_tests_from_canonical_data name tc data um iter = .ok out)
    (hw : walkCases data um = .ok (pf, tf)) :
    tf.length = (leafCasesAll data).length
    ∧ (makeFirstRunnable tf).length = (leafCasesAll data).length := by
  obtain ⟨_, hus, _⟩ := walk_ok hw
  have hlen := unitsOfLeaves_ok_length hus
  refine ⟨hlen, ?_⟩
  cases tf with
  | nil => simpa [makeFirstRunnable] using hlen
  | cons a r => simpa [makeFirstRunnable] using hlen

def inp4 : Json :=
  .obj [("cases", .arr
    [.obj [("description", .str ("G").toList),
           ("cases", .arr [mkCase ("g one") ("delta") 1 2,
                           mkCase ("g two") ("delta") 3 4])],
     mkCase ("solo") ("gamma") 5 6])]

theorem c4_witness :
    (walkTf inp4 false).length = (leafCasesAll inp4).length
    ∧ (makeFirstRunnable (walkTf inp4 false)).length
        = (leafCasesAll inp4).length :=
  c4_unit_count ("x").toList [] inp4 false id _ (walkPf inp4 false)
    (walkTf inp4 false) rfl rfl

/-- C5: property registration is idempotent: after a successful walk the
registry has pairwise distinct keys, its keys are exactly the property
strings occurring among the leaf cases, each key is bound to the helper body
generated from the property name alone, and re-registering a present key is
a no-op. -/
theorem c5_registry_dedup (data : Json) (um : Bool)
    (pf : List (Str × Str)) (tf : List Str)
    (hw : walkCases data um = .ok (pf, tf)) :
    (pf.map Prod.fst).Nodup
    ∧ (∀ p, p ∈ pf.map Prod.fst ↔ p ∈ propsOf (leafCasesAll data))
    ∧ bodiesOk pf
    ∧ (∀ l k, k ∈ l.map Prod.fst → insertAbsent l k = l) := by
  obtain ⟨hk, hus, hb⟩ := walk_ok hw
  refine ⟨?_, ?_, hb, ?_⟩
  · rw [hk]; exact firstSeenAux_nodup _ []
  · intro p
    rw [hk]
    constructor
    · intro hm; exact (firstSeenAux_mem _ [] p hm).1
    · intro hm; exact firstSeenAux_complete _ [] p hm (List.not_mem_nil p)
  · intro l k hmem
    rw [insertAbsent, if_pos (show containsKey l k = true by
      rw [containsKey]; exact decide_eq_true hmem)]

def inp5 : Json :=
  .obj [("cases", .arr [mkCase ("first") ("shared") 1 2,
                        mkCase ("second") ("shared") 3 4])]

theorem c5_witness :
    ((walkPf inp5 false).map Prod.fst).Nodup
    ∧ (∀ p, p ∈ (walkPf inp5 false).map Prod.fst
        ↔ p ∈ propsOf (leafCasesAll inp5))
    ∧ bodiesOk (walkPf inp5 false)
    ∧ (∀ l k, k ∈ l.map Prod.fst → insertAbsent l k = l) :=
  c5_registry_dedup inp5 false (walkPf inp5 false) (walkTf inp5 false) rfl

/-- C6: a leaf case lacking a `property` field or lacking a `description`
field makes the generation run fail (a MalformedSpec condition) instead of
emitting or silently skipping a unit for that case. -/
theorem c6_missing_field (name tc : Str) (data : Json) (um : Bool)
    (iter : List (Str × Str) → List (Str × Str))
    (c : Json) (hc : c ∈ leafCasesAll data)
    (hmiss : c.get ("property") = none ∨ c.get ("description") = none) :
    ∀ out, generate_tests_from_canonical_data name tc data um iter
      ≠ .ok out := by
  intro out hgen
  obtain ⟨pf, tf, hw⟩ := generate_ok_walk hgen
  obtain ⟨_, hus, _⟩ := walk_ok hw
  obtain ⟨d, p, hd, hp⟩ := unitsOfLeaves_ok_wf hus c hc
  cases hmiss with
  | inl h => simp [caseProp, h] at hp
  | inr h => simp [caseDesc, h] at hd

def case6 : Json := .obj [("description", Json.str ("lonely").toList)]

def inp6 : Json := .obj [("cases", .arr [case6])]

theorem c6_witness :
    generate_tests_from_canonical_data ("x").toList [] inp6 false id
      ≠ .ok [] :=
  c6_missing_field ("x").toList [] inp6 false id case6
    (by rw [show leafCasesAll inp6 = [case6] from rfl]
        exact List.mem_singleton.mpr rfl)
    (Or.inl rfl) []

/-- C7: when some group's child is itself a group (shaped per the data
model: it carries a `cases` field and no `property` field), the generation
run fails instead of emitting a test unit for the nested group. -/
theorem c7_nested_group (name tc : Str) (data : Json) (um : Bool)
    (iter : List (Str × Str) → List (Str × Str))
    (t g subs : Json) (lsub : List Json)
    (ht : t ∈ topsOf data)
    (hsubs : t.get ("cases") = some subs) (harr : subs.as_array = some lsub)
    (hg : g ∈ lsub)
    (hgroup : (g.get ("cases")).isSome = true)
    (hnoprop : g.get ("property") = none) :
    ∀ out, generate_tests_from_canonical_data name tc data um iter
      ≠ .ok out := by
  intro out hgen
  obtain ⟨pf, tf, hw⟩ := generate_ok_walk hgen
  obtain ⟨_, hus, _⟩ := walk_ok hw
  have hmem : g ∈ leafCasesAll data := by
    rw [leafCasesAll, leavesAll]
    refine List.mem_flatten.mpr ⟨leavesOfTop t, List.mem_map_of_mem leavesOfTop ht, ?_⟩
    have hlt : leavesOfTop t = lsub := by simp [leavesOfTop, hsubs, harr]
    rw [hlt]
    exact hg
  obtain ⟨d, p, hd, hp⟩ := unitsOfLeaves_ok_wf hus g hmem
  simp [caseProp, hnoprop] at hp

def nested7 : Json :=
  .obj [("description", Json.str ("H").toList), ("cases", Json.arr [])]

def inp7 : Json :=
  .obj [("cases", .arr
    [.obj [("description", Json.str ("G").toList),
           ("cases", Json.arr [nested7])]])]

theorem c7_witness :
    generate_tests_from_canonical_data ("x").toList [] inp7 false id
      ≠ .ok [] :=
  c7_nested_group ("x").toList [] inp7 false id
    (Json.obj [("description", Json.str ("G").toList),
               ("cases", Json.arr [nested7])])
    nested7 (Json.arr [nested7]) [nested7]
    (by rw [show topsOf inp7
          = [Json.obj [("description", Json.str ("G").toList),
                       ("cases", Json.arr [nested7])]] from rfl]
        exact List.mem_singleton.mpr rfl)
    rfl rfl (List.mem_singleton.mpr rfl) rfl rfl []

theorem removeIgnore_test_prefixed (t : Str) :
    removeIgnore (("#[test]\n").toList ++ (ignoreMarker ++ t))
      = ("#[test]\n").toList ++ removeIgnore t := by
  rw [show ("#[test]\n").toList ++ (ignoreMarker ++ t)
      = '#' :: ('[' :: ('t' :: ('e' :: ('s' :: ('t' :: (']' :: ('\n'
          :: (ignoreMarker ++ t)))))))) from rfl]
  rw [removeIgnore_cons_neg (by rfl)]
  rw [removeIgnore_cons_neg (marker_isPrefixOf_neg _ (by decide))]
  rw [removeIgnore_cons_neg (marker_isPrefixOf_neg _ (by decide))]
  rw [removeIgnore_cons_neg (marker_isPrefixOf_neg _ (by decide))]
  rw [removeIgnore_cons_neg (marker_isPrefixOf_neg _ (by decide))]
  rw [removeIgnore_cons_neg (marker_isPrefixOf_neg _ (by decide))]
  rw [removeIgnore_cons_neg (marker_isPrefixOf_neg _ (by decide))]
  rw [removeIgnore_cons_neg (marker_isPrefixOf_neg _ (by decide))]
  rw [removeIgnore_marker_append t]
  rfl

/-- C3: for a successful run over at least one leaf case (whose property
strings and rendered values avoid `#`), the emitted list is the unit of the
first leaf case with every skip-marker occurrence removed, followed by the
unchanged later units; the first unit carries no `#[ignore]` marker and
every other unit does. -/
theorem c3_first_not_skipped (data : Json) (um : Bool)
    (pf : List (Str × Str)) (tf : List Str)
    (hw : walkCases data um = .ok (pf, tf))
    (hne : leafCasesAll data ≠ [])
    (hclean : ∀ c ∈ leafCasesAll data, cleanCase um c = true) :
    ∃ u₀ rest, tf = u₀ :: rest
      ∧ generate_test_function ((leafCasesAll data).headD Json.null) um = .ok u₀
      ∧ makeFirstRunnable tf = removeIgnore u₀ :: rest
      ∧ hasMarker (removeIgnore u₀) = false
      ∧ ∀ u ∈ rest, hasMarker u = true := by
  obtain ⟨_, hus, _⟩ := walk_ok hw
  cases hl : leafCasesAll data with
  | nil => exact absurd hl hne
  | cons c0 cr =>
      rw [hl] at hus
      rw [unitsOfLeaves] at hus
      cases hg : generate_test_function c0 um with
      | error e => rw [hg] at hus; cases hus
      | ok t0 =>
          rw [hg] at hus
          cases hr : unitsOfLeaves um cr with
          | error e => rw [hr] at hus; cases hus
          | ok us =>
              rw [hr] at hus
              cases hus
              have hm0 : c0 ∈ leafCasesAll data := by
                rw [hl]; exact List.mem_cons_self _ _
              obtain ⟨tail0, hdec0, hnh0⟩ :=
                genFn_marker_decomp hg (hclean c0 hm0)
              refine ⟨t0, us, rfl, by simpa using hg, rfl, ?_, ?_⟩
              · rw [hdec0, removeIgnore_test_prefixed]
                rw [removeIgnore_noHash hnh0]
                exact hasMarker_unit_tail hnh0
              · intro u hu
                obtain ⟨c, hcmem, hgc⟩ := unitsOfLeaves_ok_mem hr u hu
                have hcc : cleanCase um c = true := hclean c
                  (by rw [hl]; exact List.mem_cons_of_mem _ hcmem)
                obtain ⟨tl, hdc, hnh⟩ := genFn_marker_decomp hgc hcc
                rw [hdc, hasMarker, ignoreMarker_eq]
                exact containsSub_mid _ _ _ _

def inp3 : Json :=
  .obj [("cases", .arr [mkCase ("one a") ("pa") 1 2,
                        mkCase ("two b") ("pb") 3 4])]

theorem c3_witness :
    ∃ u₀ rest, walkTf inp3 false = u₀ :: rest
      ∧ generate_test_function ((leafCasesAll inp3).headD Json.null) false
          = .ok u₀
      ∧ makeFirstRunnable (walkTf inp3 false) = removeIgnore u₀ :: rest
      ∧ hasMarker (removeIgnore u₀) = false
      ∧ ∀ u ∈ rest, hasMarker u = true :=
  c3_first_not_skipped inp3 false (walkPf inp3 false) (walkTf inp3 false) rfl
    (by rw [show leafCasesAll inp3
          = [mkCase ("one a") ("pa") 1 2, mkCase ("two b") ("pb") 3 4] from rfl]
        exact List.cons_ne_nil _ _)
    (by intro c hc
        rw [show leafCasesAll inp3
          = [mkCase ("one a") ("pa") 1 2, mkCase ("two b") ("pb") 3 4] from rfl] at hc
        rcases List.mem_cons.mp hc with rfl | hc
        · decide
        rcases List.mem_cons.mp hc with rfl | hc
        · decide
        cases hc)

def inpC1 : Json :=
  .obj [("cases", .arr [mkCase ("du") ("px") 1 2, mkCase ("dv") ("py") 3 4])]

set_option maxRecDepth 200000 in
/-- C1 counterexample: the identity and the reversal are both legitimate
iteration orders of the property map (each is a permutation of the entries,
the only guarantee `HashMap` iteration gives), yet on an input with two
distinct properties the two runs produce different output bytes: the claim
that two runs on the same input are byte-identical is false. -/
theorem c1_cex :
    (∀ l : List (Str × Str), (id l).Perm l)
    ∧ (∀ l : List (Str × Str), l.reverse.Perm l)
    ∧ generate_tests_from_canonical_data ("x").toList [] inpC1 false id
        ≠ generate_tests_from_canonical_data ("x").toList [] inpC1 false
            List.reverse := by
  refine ⟨fun l => List.Perm.refl l, fun l => List.reverse_perm l, ?_⟩
  decide

/-- C1 amended: two runs on the same input are byte-identical whenever they
iterate the property map in the same order; in particular, whenever at most
one distinct property occurs among the cases, any two permutation-valid
iteration orders give byte-identical output.  (With two or more distinct
properties the helper-body order follows the map's unspecified per-run
iteration order and may differ between runs.) -/
theorem c1_amended (name tc : Str) (data : Json) (um : Bool)
    (iter₁ iter₂ : List (Str × Str) → List (Str × Str))
    (h1 : ∀ l, (iter₁ l).Perm l) (h2 : ∀ l, (iter₂ l).Perm l)
    (hsmall : registrySmall data um = true) :
    generate_tests_from_canonical_data name tc data um iter₁
      = generate_tests_from_canonical_data name tc data um iter₂ := by
  cases hw : walkCases data um with
  | error e => simp only [generate_tests_from_canonical_data, hw]
  | ok acc =>
      obtain ⟨pf, tf⟩ := acc
      simp only [registrySmall, hw] at hsmall
      have hlen : pf.length ≤ 1 := of_decide_eq_true hsmall
      have hiter : iter₁ pf = iter₂ pf := by
        cases pf with
        | nil => rw [(h1 []).eq_nil, (h2 []).eq_nil]
        | cons a r =>
            cases r with
            | nil =>
                rw [List.perm_singleton.mp (h1 [a]),
                  List.perm_singleton.mp (h2 [a])]
            | cons b r₂ => simp at hlen
      simp only [generate_tests_from_canonical_data, hw, hiter]

def inpC1w : Json :=
  .obj [("cases", .arr [mkCase ("w one") ("pz") 1 2,
                        mkCase ("w two") ("pz") 3 4])]

theorem c1_amended_witness :
    generate_tests_from_canonical_data ("x").toList [] inpC1w false id
      = generate_tests_from_canonical_data ("x").toList [] inpC1w false
          List.reverse :=
  c1_amended ("x").toList [] inpC1w false id List.reverse
    (fun l => List.Perm.refl l) (fun l => List.reverse_perm l) rfl

def inpC2 : Json :=
  .obj [("cases", .arr [mkCase ("e one") ("qa") 1 2,
                        mkCase ("e two") ("qb") 3 4])]

set_option maxRecDepth 200000 in
/-- C2 counterexample: the walk's registry is in first-seen order
(`qa` before `qb`), the reversal is a legitimate iteration order of the
property map, yet the document produced under it is NOT the document whose
helper bodies are in first-seen order: the claimed ordering (helpers in
first-encounter order) does not hold for every run. -/
theorem c2_cex :
    (∀ l : List (Str × Str), l.reverse.Perm l)
    ∧ walkPf inpC2 false
        = [(("qa").toList, generate_property_body (("qa").toList)),
           (("qb").toList, generate_property_body (("qb").toList))]
    ∧ generate_tests_from_canonical_data ("x").toList [] inpC2 false
          List.reverse
        ≠ .ok (updated_tests_content ("x").toList []
            ++ ((walkPf inpC2 false).map Prod.snd).flatten
            ++ List.intercalate (("\n\n").toList)
                 (makeFirstRunnable (walkTf inpC2 false))) := by
  refine ⟨fun l => List.reverse_perm l, by decide, ?_⟩
  decide

/-- C2 amended: for every successful run, the assembled document is exactly
preamble, then the helper bodies in the map's iteration order — some
permutation of the first-seen registry, not necessarily first-seen order —
then the test units in tree-walk order joined by blank lines. -/
theorem c2_amended (name tc : Str) (data : Json) (um : Bool)
    (iter : List (Str × Str) → List (Str × Str))
    (hiter : ∀ l, (iter l).Perm l)
    (pf : List (Str × Str)) (tf : List Str)
    (hw : walkCases data um = .ok (pf, tf)) :
    generate_tests_from_canonical_data name tc data um iter
      = .ok (updated_tests_content name tc
          ++ ((iter pf).map Prod.snd).flatten
          ++ List.intercalate (("\n\n").toList) (makeFirstRunnable tf))
    ∧ (iter pf).Perm pf
    ∧ pf.map Prod.fst = firstSeenAux [] (propsOf (leafCasesAll data))
    ∧ unitsOfLeaves um (leafCasesAll data) = .ok tf := by
  obtain ⟨hk, hus, _⟩ := walk_ok hw
  refine ⟨?_, hiter pf, hk, hus⟩
  rw [generate_tests_from_canonical_data, hw]

theorem c2_amended_witness :
    generate_tests_from_canonical_data ("x").toList [] inpC2 false
        List.reverse
      = .ok (updated_tests_content ("x").toList []
          ++ ((List.reverse (walkPf inpC2 false)).map Prod.snd).flatten
          ++ List.intercalate (("\n\n").toList)
               (makeFirstRunnable (walkTf inpC2 false)))
    ∧ (List.reverse (walkPf inpC2 false)).Perm (walkPf inpC2 false)
    ∧ (walkPf inpC2 false).map Prod.fst
        = firstSeenAux [] (propsOf (leafCasesAll inpC2))
    ∧ unitsOfLeaves false (leafCasesAll inpC2) = .ok (walkTf inpC2 false) :=
  c2_amended ("x").toList [] inpC2 false List.reverse
    (fun l => List.reverse_perm l) (walkPf inpC2 false) (walkTf inpC2 false)
    rfl

theorem genFn_contains_fnName {c : Json} {um : Bool} {t : Str}
    (h : generate_test_function c um = .ok t) :
    containsSub (fnName (descOf c)) t = true := by
  obtain ⟨d, p, hd, hp, ht⟩ := genFn_ok_shape h
  have hdesc : descOf c = d := by rw [descOf, hd]; rfl
  rw [hdesc, ht]
  have hEq : ("#[test]\n#[ignore]\nfn test_").toList ++ normalizeIdent d
        ++ ("() \n    process_").toList ++ p ++ ("_case(").toList
        ++ renderLiteral um ((c.get ("input")).getD .null) ++ (", ").toList
        ++ renderLiteral um ((c.get ("expected")).getD .null)
        ++ (");\n").toList
      = ("#[test]\n#[ignore]\n").toList
        ++ (fnName d ++ ((" \n    process_").toList ++ p ++ ("_case(").toList
            ++ renderLiteral um ((c.get ("input")).getD .null)
            ++ (", ").toList
            ++ renderLiteral um ((c.get ("expected")).getD .null)
            ++ (");\n").toList)) := by
    rw [fnName]
    rw [show ("#[test]\n#[ignore]\nfn test_").toList
        = ("#[test]\n#[ignore]\n").toList ++ ("fn test_").toList from rfl]
    rw [show ("() \n    process_").toList
        = ("()").toList ++ (" \n    process_").toList from rfl]
    simp [List.append_assoc]
  rw [hEq]
  obtain ⟨q, qr, hq⟩ : ∃ q qr, fnName d = q :: qr :=
    ⟨'f', (("n test_").toList ++ normalizeIdent d) ++ ("()").toList, rfl⟩
  rw [hq]
  exact containsSub_mid q qr _ _

def inp9 : Json :=
  .obj [("cases", .arr [mkCase ("Case One") ("p") 1 2,
                        mkCase ("case-one") ("p") 3 4])]

set_option maxRecDepth 200000 in
/-- C9 counterexample: two leaf cases whose descriptions "Case One" and
"case-one" normalize to the same identifier token do NOT make the run fail:
generation succeeds and emits both units, so the claimed MalformedSpec
failure does not happen. -/
theorem c9_cex :
    normalizeIdent (("Case One").toList) = normalizeIdent (("case-one").toList)
    ∧ (walkTf inp9 false).length = 2
    ∧ generate_tests_from_canonical_data ("x").toList [] inp9 false id
        = .ok (updated_tests_content ("x").toList []
            ++ ((walkPf inp9 false).map Prod.snd).flatten
            ++ List.intercalate (("\n\n").toList)
                 (makeFirstRunnable (walkTf inp9 false))) := by
  refine ⟨by decide, by decide, ?_⟩
  rfl

/-- C9 amended: the generator performs no uniqueness check on normalized
identifiers: an input whose distinct leaf cases have descriptions that
normalize to the same identifier still generates successfully, emitting one
unit per leaf case, and the two units carry the same derived function
name. -/
theorem c9_amended (data : Json) (um : Bool)
    (pf : List (Str × Str)) (tf : List Str) (i j : Nat)
    (hw : walkCases data um = .ok (pf, tf))
    (hi : i < (leafCasesAll data).length)
    (hj : j < (leafCasesAll data).length)
    (hij : i ≠ j)
    (hd : normalizeIdent (descOf ((leafCasesAll data).get ⟨i, hi⟩))
        = normalizeIdent (descOf ((leafCasesAll data).get ⟨j, hj⟩))) :
    tf.length = (leafCasesAll data).length
    ∧ ∃ (hi₂ : i < tf.length) (hj₂ : j < tf.length),
        containsSub (fnName (descOf ((leafCasesAll data).get ⟨i, hi⟩)))
          (tf.get ⟨i, hi₂⟩) = true
        ∧ containsSub (fnName (descOf ((leafCasesAll data).get ⟨i, hi⟩)))
          (tf.get ⟨j, hj₂⟩) = true := by
  obtain ⟨_, hus, _⟩ := walk_ok hw
  have hlen := unitsOfLeaves_ok_length hus
  have hi₂ : i < tf.length := by omega
  have hj₂ : j < tf.length := by omega
  refine ⟨hlen, hi₂, hj₂, ?_, ?_⟩
  · exact genFn_contains_fnName (unitsOfLeaves_ok_get hus i hi hi₂)
  · have hnm : fnName (descOf ((leafCasesAll data).get ⟨i, hi⟩))
        = fnName (descOf ((leafCasesAll data).get ⟨j, hj⟩)) := by
      rw [fnName, fnName, hd]
    rw [hnm]
    exact genFn_contains_fnName (unitsOfLeaves_ok_get hus j hj hj₂)

theorem c9_amended_witness :
    (walkTf inp9 false).length = (leafCasesAll inp9).length
    ∧ ∃ (hi₂ : 0 < (walkTf inp9 false).length)
        (hj₂ : 1 < (walkTf inp9 false).length),
        containsSub (fnName (descOf ((leafCasesAll inp9).get
            ⟨0, by decide⟩)))
          ((walkTf inp9 false).get ⟨0, hi₂⟩) = true
        ∧ containsSub (fnName (descOf ((leafCasesAll inp9).get
            ⟨0, by decide⟩)))
          ((walkTf inp9 false).get ⟨1, hj₂⟩) = true :=
  c9_amended inp9 false (walkPf inp9 false) (walkTf inp9 false) 0 1 rfl
    (by decide) (by decide) (by decide) (by decide)

/-- C10: when the test-function list is non-empty, the first-unit step
rewrites exactly the head — every later unit is left unchanged — and the
rewrite deletes every occurrence of the substring `#[ignore]\n` anywhere in
the head's text, not only a single leading marker: a head containing the
substring twice (for instance inside a string literal) loses both
occurrences. -/
theorem c10_replace_all :
    (∀ (u : Str) (rest : List Str),
      makeFirstRunnable (u :: rest) = removeIgnore u :: rest)
    ∧ (∀ a b c : Str, noHash a = true → noHash b = true → noHash c = true →
        removeIgnore (a ++ ignoreMarker ++ b ++ ignoreMarker ++ c)
          = a ++ b ++ c) := by
  refine ⟨fun u rest => rfl, fun a b c ha hb hc => ?_⟩
  have h1 : a ++ ignoreMarker ++ b ++ ignoreMarker ++ c
      = a ++ ignoreMarker ++ (b ++ ignoreMarker ++ c) := by
    simp [List.append_assoc]
  rw [h1, removeIgnore_clean_append _ ha, removeIgnore_clean_append _ hb,
    removeIgnore_noHash hc]
  simp [List.append_assoc]

theorem c10_witness :
    makeFirstRunnable
        [("ab").toList ++ ignoreMarker ++ ("cd").toList ++ ignoreMarker
            ++ ("ef").toList,
         ("xy").toList ++ ignoreMarker]
      = [("abcdef").toList, ("xy").toList ++ ignoreMarker] := by
  rw [c10_replace_all.1 (("ab").toList ++ ignoreMarker ++ ("cd").toList
      ++ ignoreMarker ++ ("ef").toList) [("xy").toList ++ ignoreMarker]]
  rw [c10_replace_all.2 (("ab").toList) (("cd").toList) (("ef").toList)
      (by decide) (by decide) (by decide)]
  rfl
